import Mathlib

/-!
Verification of the Relevance Scoring & Blending Engine of the orda_project
repository (services/rag_service.py), shallowly embedded in Lean 4.

Modelling conventions:
* Python floats are modelled as exact rationals (`ℚ`); `round(x, 1)` is
  modelled by `round1` below.
* Python strings are modelled by Lean `String`; the string operations used by
  the source (`split`, `replace`, `strip`, `in`) are re-implemented by
  structural recursion over the character list so that they evaluate inside
  the kernel (`pySplit`, `pyReplace`, `pyStrip`, `pyContains`), with Python
  semantics for non-empty separators/patterns (the only case the source uses).
* Python dicts keyed by strings are modelled by insertion-ordered lists:
  the candidate map `all_candidates` as a `List CandI` / `List CandP` keyed by
  the `name` field (assignment = update-in-place if the key exists, append
  otherwise), and the catalogs `industry_dict` / `issue_dict` as association
  lists `List (String × String)` queried with `List.lookup`.
* Calls into external services (the Pinecone vector index, the LLM chain) are
  modelled by an `Except String` argument holding either the value the call
  returned or the exception it raised; the `try/except` blocks of the source
  become a `match` on that argument.
* Python's `sorted(..., reverse=True)` is a stable sort producing a
  non-increasing sequence of keys; it is modelled by `List.mergeSort` with the
  comparator `scoredLeI`/`scoredLeP` (`b.final_score ≤ a.final_score`), which
  is stable in exactly the same sense.
-/

namespace Orda

open scoped List

/-- Python `round(x, 1)` over exact rationals: round `10 * x` to the nearest
integer and divide by `10`. -/
def round1 (x : ℚ) : ℚ := ((round (x * 10) : ℤ) : ℚ) / 10

/-- Does `pat` occur as a contiguous substring of `s`?  Python `pat in s` for
non-empty `pat`, structurally recursive on `s`. -/
def hasSub (pat : List Char) : List Char → Bool
  | [] => pat.isEmpty
  | c :: rest => pat.isPrefixOf (c :: rest) || hasSub pat rest

/-- Fuel-driven splitter behind `pySplit`; the fuel bounds the number of
scanning steps so the recursion is structural and kernel-reducible. -/
def splitFuel (sep : List Char) : Nat → List Char → List Char → List (List Char)
  | 0, cur, _ => [cur.reverse]
  | fuel + 1, cur, s =>
    match s with
    | [] => [cur.reverse]
    | c :: rest =>
      if sep ≠ [] ∧ sep.isPrefixOf s then
        cur.reverse :: splitFuel sep fuel [] (s.drop sep.length)
      else
        splitFuel sep fuel (c :: cur) rest

/-- Python `s.split(sep)` for a non-empty separator. -/
def pySplit (s sep : String) : List String :=
  (splitFuel sep.data (s.data.length + 1) [] s.data).map String.mk

/-- Fuel-driven replacement behind `pyReplace`. -/
def replaceFuel (pat rep : List Char) : Nat → List Char → List Char
  | 0, s => s
  | fuel + 1, s =>
    match s with
    | [] => []
    | c :: rest =>
      if pat ≠ [] ∧ pat.isPrefixOf s then
        rep ++ replaceFuel pat rep fuel (s.drop pat.length)
      else
        c :: replaceFuel pat rep fuel rest

/-- Python `s.replace(pat, rep)` for a non-empty pattern: replace every
non-overlapping occurrence, scanning left to right. -/
def pyReplace (s pat rep : String) : String :=
  String.mk (replaceFuel pat.data rep.data (s.data.length + 1) s.data)

/-- Python `s.strip()`: drop whitespace from both ends. -/
def pyStrip (s : String) : String :=
  String.mk
    (((s.data.dropWhile Char.isWhitespace).reverse.dropWhile Char.isWhitespace).reverse)

/-- Python `pat in s` on strings. -/
def pyContains (s pat : String) : Bool := hasSub pat.data s.data

/-- One candidate nominated by the language-model source, i.e. one element of
the parsed `result["candidates"]` list: `{"industry"/"issue": name,
"score": …, "reason": …}`.  -/
structure AICand where
  name : String
  score : ℚ
  reason : String
deriving DecidableEq, Repr

/-- One industry candidate produced by `_vector_search_industries`. -/
structure VecCandI where
  name : String
  similarity : ℚ
  description : String
deriving DecidableEq, Repr

/-- One past-issue candidate produced by `_vector_search_past_issues`. -/
structure VecCandP where
  name : String
  similarity : ℚ
  description : String
  period : String
deriving DecidableEq, Repr

/-- An entry of the `all_candidates` dict of `_combine_industry_results`
before the scoring pass adds `final_score`. -/
structure CandI where
  name : String
  vector_similarity : ℚ
  ai_score : ℚ
  ai_reason : String
  description : String
deriving DecidableEq, Repr

/-- An entry of the `all_candidates` dict of `_combine_industry_results`
after `final_score` has been filled in. -/
structure ScoredI where
  name : String
  vector_similarity : ℚ
  ai_score : ℚ
  ai_reason : String
  description : String
  final_score : ℚ
deriving DecidableEq, Repr

/-- An entry of the `all_candidates` dict of `_combine_past_issue_results`
before the scoring pass adds `final_score`. -/
structure CandP where
  name : String
  vector_similarity : ℚ
  ai_score : ℚ
  ai_reason : String
  description : String
  period : String
deriving DecidableEq, Repr

/-- An entry of the `all_candidates` dict of `_combine_past_issue_results`
after `final_score` has been filled in. -/
structure ScoredP where
  name : String
  vector_similarity : ℚ
  ai_score : ℚ
  ai_reason : String
  description : String
  period : String
  final_score : ℚ
deriving DecidableEq, Repr

/-- Python dict assignment `all_candidates[c.name] = c` on the
insertion-ordered candidate map: update in place if the key exists, append
otherwise. -/
def dictSetI (m : List CandI) (c : CandI) : List CandI :=
  if ∃ e ∈ m, e.name = c.name then
    m.map fun e => if e.name = c.name then c else e
  else
    m ++ [c]

/-- Past-issue version of `dictSetI`. -/
def dictSetP (m : List CandP) (c : CandP) : List CandP :=
  if ∃ e ∈ m, e.name = c.name then
    m.map fun e => if e.name = c.name then c else e
  else
    m ++ [c]

/-- First loop of `_combine_industry_results` (lines 322–331): seed the
candidate map from the vector-search results, with `ai_score = 0` and
`ai_reason = ""`. -/
def seedVectorI (vector_candidates : List VecCandI) : List CandI :=
  vector_candidates.foldl
    (fun m c => dictSetI m ⟨c.name, c.similarity, 0, "", c.description⟩) []

/-- First loop of `_combine_past_issue_results` (lines 368–378). -/
def seedVectorP (vector_candidates : List VecCandP) : List CandP :=
  vector_candidates.foldl
    (fun m c => dictSetP m ⟨c.name, c.similarity, 0, "", c.description, c.period⟩) []

/-- One iteration of the AI-merge loop of `_combine_industry_results`
(lines 334–346): if the nominated name is already a key, overwrite only
`ai_score` and `ai_reason`; otherwise insert a fresh entry exactly when the
name is a key of `industry_dict`, with `vector_similarity = 0` and the
catalog description. -/
def aiMergeI (industry_dict : List (String × String)) (m : List CandI)
    (a : AICand) : List CandI :=
  if ∃ e ∈ m, e.name = a.name then
    m.map fun e =>
      if e.name = a.name then
        ⟨e.name, e.vector_similarity, a.score, a.reason, e.description⟩
      else e
  else
    match industry_dict.lookup a.name with
    | some desc => m ++ [⟨a.name, 0, a.score, a.reason, desc⟩]
    | none => m

/-- One iteration of the AI-merge loop of `_combine_past_issue_results`
(lines 381–394); a freshly inserted entry gets `period = "N/A"`. -/
def aiMergeP (issue_dict : List (String × String)) (m : List CandP)
    (a : AICand) : List CandP :=
  if ∃ e ∈ m, e.name = a.name then
    m.map fun e =>
      if e.name = a.name then
        ⟨e.name, e.vector_similarity, a.score, a.reason, e.description, e.period⟩
      else e
  else
    match issue_dict.lookup a.name with
    | some desc => m ++ [⟨a.name, 0, a.score, a.reason, desc, "N/A"⟩]
    | none => m

/-- The candidate map of `_combine_industry_results` after both loops. -/
def allCandidatesI (industry_dict : List (String × String))
    (vector_candidates : List VecCandI) (ai_candidates : List AICand) : List CandI :=
  ai_candidates.foldl (aiMergeI industry_dict) (seedVectorI vector_candidates)

/-- The candidate map of `_combine_past_issue_results` after both loops. -/
def allCandidatesP (issue_dict : List (String × String))
    (vector_candidates : List VecCandP) (ai_candidates : List AICand) : List CandP :=
  ai_candidates.foldl (aiMergeP issue_dict) (seedVectorP vector_candidates)

/-- Scoring pass of both combiners (lines 349–355 and 397–400):
`final_score = round(vector_similarity / 10 * 0.3 + ai_score * 0.7, 1)`. -/
def finalScore (vector_similarity ai_score : ℚ) : ℚ :=
  round1 (vector_similarity / 10 * 0.3 + ai_score * 0.7)

/-- Attach `final_score` to an industry candidate. -/
def scoreCandI (c : CandI) : ScoredI :=
  ⟨c.name, c.vector_similarity, c.ai_score, c.ai_reason, c.description,
    finalScore c.vector_similarity c.ai_score⟩

/-- Attach `final_score` to a past-issue candidate. -/
def scoreCandP (c : CandP) : ScoredP :=
  ⟨c.name, c.vector_similarity, c.ai_score, c.ai_reason, c.description, c.period,
    finalScore c.vector_similarity c.ai_score⟩

/-- Comparator of the final sort, `sorted(key=final_score, reverse=True)`:
a stable sort under this relation is exactly Python's stable descending
sort by `final_score`. -/
def scoredLeI (a b : ScoredI) : Bool := decide (b.final_score ≤ a.final_score)

/-- Past-issue version of `scoredLeI`. -/
def scoredLeP (a b : ScoredP) : Bool := decide (b.final_score ≤ a.final_score)

/-- `_combine_industry_results` (lines 318–362): seed from vector results,
merge AI nominations, score, and sort descending by `final_score`. -/
def _combine_industry_results (industry_dict : List (String × String))
    (vector_candidates : List VecCandI) (ai_candidates : List AICand) : List ScoredI :=
  ((allCandidatesI industry_dict vector_candidates ai_candidates).map scoreCandI).mergeSort
    scoredLeI

/-- `_combine_past_issue_results` (lines 364–407). -/
def _combine_past_issue_results (issue_dict : List (String × String))
    (vector_candidates : List VecCandP) (ai_candidates : List AICand) : List ScoredP :=
  ((allCandidatesP issue_dict vector_candidates ai_candidates).map scoreCandP).mergeSort
    scoredLeP

/-- Parsing of one retrieved document inside `_vector_search_industries`
(lines 155–167): clean the BOM, require the name marker, take the first line
carrying the marker, extract and strip the name, require it to be a key of
`industry_dict`, and read the detail after `"상세내용:"` (falling back to the
catalog description).  Returns `none` when the document yields no valid
candidate. -/
def parseIndustryDoc (industry_dict : List (String × String))
    (page_content : String) : Option (String × String) :=
  let content := pyReplace (pyReplace page_content "\ufeff" "") "\ufeff" ""
  if pyContains content "KRX 업종명:" then
    match (pySplit content "\n").find? (fun line => pyContains line "KRX 업종명:") with
    | some line =>
      let industry_name := pyStrip (pyReplace line "KRX 업종명:" "")
      match industry_dict.lookup industry_name with
      | some dictDesc =>
        let content_parts := pySplit content "상세내용:"
        let industry_detail :=
          if h : 2 ≤ content_parts.length then pyStrip (content_parts.get ⟨1, by omega⟩)
          else dictDesc
        some (industry_name, industry_detail)
      | none => none
    | none => none
  else none

/-- One iteration of the result loop of `_vector_search_industries`
(lines 154–174): a document that parses to a valid, not-yet-seen name appends
a candidate whose similarity is `round((1 - score) * 100, 1)`. -/
def vecStepI (industry_dict : List (String × String)) (candidates : List VecCandI)
    (docScore : String × ℚ) : List VecCandI :=
  match parseIndustryDoc industry_dict docScore.1 with
  | some (industry_name, industry_detail) =>
    if ∃ c ∈ candidates, c.name = industry_name then candidates
    else candidates ++ [⟨industry_name, round1 ((1 - docScore.2) * 100), industry_detail⟩]
  | none => candidates

/-- `_vector_search_industries` (lines 148–180): on a raised retrieval error
return `[]`, otherwise fold `vecStepI` over the returned
(document, distance) pairs. -/
def _vector_search_industries (industry_dict : List (String × String))
    (results : Except String (List (String × ℚ))) : List VecCandI :=
  match results with
  | .error _ => []
  | .ok rs => rs.foldl (vecStepI industry_dict) []

/-- `_ai_extract_candidate_industries` (lines 226–270): empty catalog short
circuits to `[]`; a raised LLM/parse error is absorbed to `[]`; otherwise the
parsed candidate list is returned as is. -/
def _ai_extract_candidate_industries (valid_krx_names : List String)
    (response : Except String (List AICand)) : List AICand :=
  if valid_krx_names.isEmpty then []
  else
    match response with
    | .error _ => []
    | .ok candidates => candidates

/-- `_analyze_industry_for_issue` (lines 108–126): vector search, AI
extraction, combination, and truncation to the top 3. -/
def _analyze_industry_for_issue (industry_dict : List (String × String))
    (vec_results : Except String (List (String × ℚ)))
    (ai_response : Except String (List AICand)) : List ScoredI :=
  let vector_candidates := _vector_search_industries industry_dict vec_results
  let ai_candidates :=
    _ai_extract_candidate_industries (industry_dict.map Prod.fst) ai_response
  (_combine_industry_results industry_dict vector_candidates ai_candidates).take 3

/-- Mean of the `final_score` field over an industry result set. -/
def meanFinalI (l : List ScoredI) : ℚ := (l.map ScoredI.final_score).sum / l.length

/-- Mean of the `final_score` field over a past-issue result set. -/
def meanFinalP (l : List ScoredP) : ℚ := (l.map ScoredP.final_score).sum / l.length

/-- `_calculate_rag_confidence` (lines 409–418): `0.0` when either input list
is empty, else the rounded mean of the two per-class average final scores. -/
def _calculate_rag_confidence (industries : List ScoredI)
    (past_issues : List ScoredP) : ℚ :=
  if industries = [] ∨ past_issues = [] then 0
  else
    round1 ((meanFinalI industries + meanFinalP past_issues) / 2)

/-- Confidence as the specification words it (§4.4): the rounded mean of the
two per-class averages, with `0.0` whenever either result set is empty. -/
def confidenceSpec (industries : List ScoredI) (past_issues : List ScoredP) : ℚ :=
  if industries = [] ∨ past_issues = [] then 0
  else round1 ((meanFinalI industries + meanFinalP past_issues) / 2)

theorem round_mono_q {x y : ℚ} (h : x ≤ y) : round x ≤ round y := by
  rw [round_eq, round_eq]
  exact Int.floor_le_floor (by linarith)

theorem round1_mono {x y : ℚ} (h : x ≤ y) : round1 x ≤ round1 y := by
  unfold round1
  have h1 : round (x * 10) ≤ round (y * 10) := round_mono_q (by linarith)
  have h2 : ((round (x * 10) : ℤ) : ℚ) ≤ ((round (y * 10) : ℤ) : ℚ) := by exact_mod_cast h1
  linarith

theorem round1_zero : round1 0 = 0 := by simp [round1]

theorem round1_nonneg {x : ℚ} (h : 0 ≤ x) : 0 ≤ round1 x := by
  have h1 := round1_mono h
  rwa [round1_zero] at h1

theorem round1_le_ten {x : ℚ} (h : x ≤ 10) : round1 x ≤ 10 := by
  have h1 := round1_mono h
  have h2 : round1 10 = 10 := by norm_num [round1, round_eq]
  linarith

theorem round1_le_hundred {x : ℚ} (h : x ≤ 100) : round1 x ≤ 100 := by
  have h1 := round1_mono h
  have h2 : round1 100 = 100 := by norm_num [round1, round_eq]
  linarith

/-- C1: for every candidate with `vector_similarity ∈ [0,100]` and
`ai_score ∈ [0,10]`, the derived
`final_score = round(vector_similarity/10 * 0.3 + ai_score * 0.7, 1)` lies in
`[0,10]` (the spec's recomputed bound; its first figure `[0,7]` is the slip the
same sentence corrects). -/
theorem c1_final_score_range (c : CandI)
    (h1 : 0 ≤ c.vector_similarity) (h2 : c.vector_similarity ≤ 100)
    (h3 : 0 ≤ c.ai_score) (h4 : c.ai_score ≤ 10) :
    0 ≤ (scoreCandI c).final_score ∧ (scoreCandI c).final_score ≤ 10 := by
  have hge : 0 ≤ c.vector_similarity / 10 * 0.3 + c.ai_score * 0.7 := by
    have e1 : c.vector_similarity / 10 * 0.3 = c.vector_similarity * (3 / 100) := by ring
    have e2 : c.ai_score * 0.7 = c.ai_score * (7 / 10) := by norm_num
    rw [e1, e2]; nlinarith
  have hle : c.vector_similarity / 10 * 0.3 + c.ai_score * 0.7 ≤ 10 := by
    have e1 : c.vector_similarity / 10 * 0.3 = c.vector_similarity * (3 / 100) := by ring
    have e2 : c.ai_score * 0.7 = c.ai_score * (7 / 10) := by norm_num
    rw [e1, e2]; nlinarith
  exact ⟨by simpa [scoreCandI, finalScore] using round1_nonneg hge,
    by simpa [scoreCandI, finalScore] using round1_le_ten hle⟩

/-- Witness for C1 at the spec's own scenario (similarity 80, AI score 9). -/
theorem c1_final_score_range_witness :
    ((0 : ℚ) ≤ 80 ∧ (80 : ℚ) ≤ 100 ∧ (0 : ℚ) ≤ 9 ∧ (9 : ℚ) ≤ 10) ∧
    (0 ≤ (scoreCandI ⟨"반도체", 80, 9, "근거", "설명"⟩).final_score ∧
      (scoreCandI ⟨"반도체", 80, 9, "근거", "설명"⟩).final_score ≤ 10) :=
  ⟨by norm_num,
    c1_final_score_range ⟨"반도체", 80, 9, "근거", "설명"⟩ (by norm_num) (by norm_num)
      (by norm_num) (by norm_num)⟩

/-- C2: the confidence of a pair of blended result sets agrees with the spec's
formula `round((mean(final_score) + mean(final_score)) / 2, 1)`, and it is `0`
as soon as either of the two sets is empty — not only when both are — no
matter what the other set's scores are. -/
theorem c2_confidence_formula (industries : List ScoredI) (past_issues : List ScoredP) :
    _calculate_rag_confidence industries past_issues = confidenceSpec industries past_issues ∧
    ((industries = [] ∨ past_issues = []) →
      _calculate_rag_confidence industries past_issues = 0) ∧
    (industries ≠ [] → past_issues ≠ [] →
      _calculate_rag_confidence industries past_issues =
        round1 ((meanFinalI industries + meanFinalP past_issues) / 2)) := by
  refine ⟨rfl, ?_, ?_⟩
  · intro h
    unfold _calculate_rag_confidence
    rw [if_pos h]
  · intro h1 h2
    unfold _calculate_rag_confidence
    rw [if_neg (by tauto)]

/-- Witness for C2: a nonempty industry set with an empty past-issue set gives
confidence `0` despite its scores, and two nonempty singletons give the spec's
rounded mean of means. -/
theorem c2_confidence_formula_witness :
    _calculate_rag_confidence [⟨"i", 80, 9, "r", "d", 8⟩] [] = 0 ∧
    _calculate_rag_confidence [⟨"i", 80, 9, "r", "d", 8⟩] [⟨"p", 0, 6, "r", "d", "N/A", 4⟩] =
      round1 ((meanFinalI [⟨"i", 80, 9, "r", "d", 8⟩] +
        meanFinalP [⟨"p", 0, 6, "r", "d", "N/A", 4⟩]) / 2) :=
  ⟨(c2_confidence_formula _ _).2.1 (Or.inr rfl),
    (c2_confidence_formula _ _).2.2 (by simp) (by simp)⟩

/-- C6: a raised vector-index query or LLM call is absorbed by the source
adapter into an empty candidate list, the per-issue analysis then returns an
empty result set rather than an error, and the confidence of empty result
sets is `0`. -/
theorem c6_error_absorption (d : List (String × String)) (names : List String)
    (e1 e2 : String) (inds : List ScoredI) (pasts : List ScoredP) :
    _vector_search_industries d (Except.error e1) = [] ∧
    _ai_extract_candidate_industries names (Except.error e2) = [] ∧
    _analyze_industry_for_issue d (Except.error e1) (Except.error e2) = [] ∧
    _calculate_rag_confidence [] pasts = 0 ∧
    _calculate_rag_confidence inds [] = 0 := by
  refine ⟨rfl, ?_, ?_, ?_, ?_⟩
  · unfold _ai_extract_candidate_industries
    split <;> rfl
  · have hv : _vector_search_industries d (Except.error e1) = [] := rfl
    have ha : _ai_extract_candidate_industries (d.map Prod.fst) (Except.error e2) = [] := by
      unfold _ai_extract_candidate_industries
      split <;> rfl
    unfold _analyze_industry_for_issue
    rw [hv, ha]
    unfold _combine_industry_results allCandidatesI seedVectorI
    simp
  · unfold _calculate_rag_confidence
    rw [if_pos (Or.inl rfl)]
  · unfold _calculate_rag_confidence
    rw [if_pos (Or.inr rfl)]

/-- C3: one AI-merge step, industry and past-issue variants alike: an already
present name gets exactly its `ai_score`/`ai_reason` overwritten; an absent
name is inserted precisely when the catalog knows it, with
`vector_similarity = 0`, the AI score and reason, and the catalog description
(and, for past issues, period `"N/A"`); an absent, unknown name changes
nothing. -/
theorem c3_ai_nomination (d : List (String × String)) (m : List CandI)
    (mp : List CandP) (a : AICand) :
    ((∃ e ∈ m, e.name = a.name) →
      aiMergeI d m a = m.map fun e =>
        if e.name = a.name then
          ⟨e.name, e.vector_similarity, a.score, a.reason, e.description⟩
        else e) ∧
    ((∀ e ∈ m, e.name ≠ a.name) → ∀ desc, d.lookup a.name = some desc →
      aiMergeI d m a = m ++ [⟨a.name, 0, a.score, a.reason, desc⟩]) ∧
    ((∀ e ∈ m, e.name ≠ a.name) → d.lookup a.name = none → aiMergeI d m a = m) ∧
    ((∃ e ∈ mp, e.name = a.name) →
      aiMergeP d mp a = mp.map fun e =>
        if e.name = a.name then
          ⟨e.name, e.vector_similarity, a.score, a.reason, e.description, e.period⟩
        else e) ∧
    ((∀ e ∈ mp, e.name ≠ a.name) → ∀ desc, d.lookup a.name = some desc →
      aiMergeP d mp a = mp ++ [⟨a.name, 0, a.score, a.reason, desc, "N/A"⟩]) ∧
    ((∀ e ∈ mp, e.name ≠ a.name) → d.lookup a.name = none → aiMergeP d mp a = mp) := by
  refine ⟨?_, ?_, ?_, ?_, ?_, ?_⟩
  · intro h
    unfold aiMergeI
    rw [if_pos h]
  · intro h desc hdesc
    unfold aiMergeI
    rw [if_neg (by push_neg; exact h), hdesc]
  · intro h hnone
    unfold aiMergeI
    rw [if_neg (by push_neg; exact h), hnone]
  · intro h
    unfold aiMergeP
    rw [if_pos h]
  · intro h desc hdesc
    unfold aiMergeP
    rw [if_neg (by push_neg; exact h), hdesc]
  · intro h hnone
    unfold aiMergeP
    rw [if_neg (by push_neg; exact h), hnone]

/-- Witness for C3: an update of an already seeded name, an insert of a
catalog-known name, and a dropped unknown name, all at concrete inputs. -/
theorem c3_ai_nomination_witness :
    aiMergeI [("화학", "카탈로그설명")] [⟨"철강", 62, 0, "", "벡터설명"⟩] ⟨"철강", 8, "이유"⟩ =
      [⟨"철강", 62, 8, "이유", "벡터설명"⟩] ∧
    aiMergeI [("화학", "카탈로그설명")] [⟨"철강", 62, 0, "", "벡터설명"⟩] ⟨"화학", 6, "근거"⟩ =
      [⟨"철강", 62, 0, "", "벡터설명"⟩, ⟨"화학", 0, 6, "근거", "카탈로그설명"⟩] ∧
    aiMergeI [("화학", "카탈로그설명")] [⟨"철강", 62, 0, "", "벡터설명"⟩] ⟨"없음", 5, "무관"⟩ =
      [⟨"철강", 62, 0, "", "벡터설명"⟩] := by
  refine ⟨?_, ?_, ?_⟩
  · have h :=
      (c3_ai_nomination [("화학", "카탈로그설명")] [⟨"철강", 62, 0, "", "벡터설명"⟩] []
        ⟨"철강", 8, "이유"⟩).1 ⟨⟨"철강", 62, 0, "", "벡터설명"⟩, by simp, rfl⟩
    simpa using h
  · have h :=
      (c3_ai_nomination [("화학", "카탈로그설명")] [⟨"철강", 62, 0, "", "벡터설명"⟩] []
        ⟨"화학", 6, "근거"⟩).2.1 (by decide) "카탈로그설명" (by decide)
    simpa using h
  · have h :=
      (c3_ai_nomination [("화학", "카탈로그설명")] [⟨"철강", 62, 0, "", "벡터설명"⟩] []
        ⟨"없음", 5, "무관"⟩).2.2.1 (by decide) (by decide)
    simpa using h

/-- C9: merging an AI nomination into an existing entry changes only
`ai_score` and `ai_reason`: the entry for the nominated name keeps its
`name`, `vector_similarity`, `description` (and `period` for past issues),
and every entry with a different name is kept verbatim. -/
theorem c9_merge_frame (d : List (String × String)) (m : List CandI)
    (mp : List CandP) (a : AICand) :
    (∀ e ∈ m, e.name = a.name →
      (⟨e.name, e.vector_similarity, a.score, a.reason, e.description⟩ : CandI) ∈
        aiMergeI d m a) ∧
    (∀ e ∈ m, e.name ≠ a.name → e ∈ aiMergeI d m a) ∧
    (∀ e ∈ mp, e.name = a.name →
      (⟨e.name, e.vector_similarity, a.score, a.reason, e.description, e.period⟩ : CandP) ∈
        aiMergeP d mp a) ∧
    (∀ e ∈ mp, e.name ≠ a.name → e ∈ aiMergeP d mp a) := by
  refine ⟨?_, ?_, ?_, ?_⟩
  · intro e he hn
    unfold aiMergeI
    rw [if_pos ⟨e, he, hn⟩]
    exact List.mem_map.2 ⟨e, he, by rw [if_pos hn]⟩
  · intro e he hn
    unfold aiMergeI
    by_cases hex : ∃ x ∈ m, x.name = a.name
    · rw [if_pos hex]
      exact List.mem_map.2 ⟨e, he, by rw [if_neg hn]⟩
    · rw [if_neg hex]
      cases d.lookup a.name with
      | some desc => exact List.mem_append_left _ he
      | none => exact he
  · intro e he hn
    unfold aiMergeP
    rw [if_pos ⟨e, he, hn⟩]
    exact List.mem_map.2 ⟨e, he, by rw [if_pos hn]⟩
  · intro e he hn
    unfold aiMergeP
    by_cases hex : ∃ x ∈ mp, x.name = a.name
    · rw [if_pos hex]
      exact List.mem_map.2 ⟨e, he, by rw [if_neg hn]⟩
    · rw [if_neg hex]
      cases d.lookup a.name with
      | some desc => exact List.mem_append_left _ he
      | none => exact he

/-- Witness for C9: the updated entry keeps its vector similarity, description
and period, and an unrelated entry survives unchanged, at concrete inputs. -/
theorem c9_merge_frame_witness :
    (⟨"이슈A", 75, 7, "근거", "설명A", "2020-01 ~ 2020-03"⟩ : CandP) ∈
      aiMergeP [] [⟨"이슈A", 75, 0, "", "설명A", "2020-01 ~ 2020-03"⟩,
        ⟨"이슈B", 40, 0, "", "설명B", "N/A"⟩] ⟨"이슈A", 7, "근거"⟩ ∧
    (⟨"이슈B", 40, 0, "", "설명B", "N/A"⟩ : CandP) ∈
      aiMergeP [] [⟨"이슈A", 75, 0, "", "설명A", "2020-01 ~ 2020-03"⟩,
        ⟨"이슈B", 40, 0, "", "설명B", "N/A"⟩] ⟨"이슈A", 7, "근거"⟩ :=
  ⟨(c9_merge_frame [] [] [⟨"이슈A", 75, 0, "", "설명A", "2020-01 ~ 2020-03"⟩,
      ⟨"이슈B", 40, 0, "", "설명B", "N/A"⟩] ⟨"이슈A", 7, "근거"⟩).2.2.1
      ⟨"이슈A", 75, 0, "", "설명A", "2020-01 ~ 2020-03"⟩ (by simp) rfl,
    (c9_merge_frame [] [] [⟨"이슈A", 75, 0, "", "설명A", "2020-01 ~ 2020-03"⟩,
      ⟨"이슈B", 40, 0, "", "설명B", "N/A"⟩] ⟨"이슈A", 7, "근거"⟩).2.2.2
      ⟨"이슈B", 40, 0, "", "설명B", "N/A"⟩ (by simp) (by decide)⟩

theorem scoredLeI_trans (a b c : ScoredI) (h1 : scoredLeI a b) (h2 : scoredLeI b c) :
    scoredLeI a c := by
  simp only [scoredLeI, decide_eq_true_eq] at h1 h2 ⊢
  exact le_trans h2 h1

theorem scoredLeI_total (a b : ScoredI) : scoredLeI a b || scoredLeI b a := by
  simp only [scoredLeI, Bool.or_eq_true, decide_eq_true_eq]
  exact le_total b.final_score a.final_score

theorem combine_industry_sorted (d : List (String × String)) (vc : List VecCandI)
    (ac : List AICand) :
    (_combine_industry_results d vc ac).Pairwise
      (fun a b => b.final_score ≤ a.final_score) := by
  have h := List.sorted_mergeSort scoredLeI_trans scoredLeI_total
    ((allCandidatesI d vc ac).map scoreCandI)
  exact h.imp (by simp [scoredLeI])

theorem analyze_industry_eq (d : List (String × String))
    (vec_results : Except String (List (String × ℚ)))
    (ai_response : Except String (List AICand)) :
    _analyze_industry_for_issue d vec_results ai_response =
      (_combine_industry_results d (_vector_search_industries d vec_results)
        (_ai_extract_candidate_industries (d.map Prod.fst) ai_response)).take 3 := rfl

/-- C4: the blended result set returned for one query — the combination of the
two source lists, truncated by the caller to the top 3 — always has length at
most 3 and is ordered non-increasingly by `final_score`; the full combined
list is itself sorted that way. -/
theorem c4_result_set_shape (d : List (String × String)) (vc : List VecCandI)
    (ac : List AICand) (vec_results : Except String (List (String × ℚ)))
    (ai_response : Except String (List AICand)) :
    (_combine_industry_results d vc ac).Pairwise
      (fun a b => b.final_score ≤ a.final_score) ∧
    (_analyze_industry_for_issue d vec_results ai_response).length ≤ 3 ∧
    (_analyze_industry_for_issue d vec_results ai_response).Pairwise
      (fun a b => b.final_score ≤ a.final_score) := by
  refine ⟨combine_industry_sorted d vc ac, ?_, ?_⟩
  · rw [analyze_industry_eq]
    exact List.length_take_le 3 _
  · rw [analyze_industry_eq]
    exact (combine_industry_sorted d _ _).sublist (List.take_sublist 3 _)

theorem mem_dictSetI {m : List CandI} {c e : CandI} (he : e ∈ dictSetI m c) :
    e ∈ m ∨ e = c := by
  unfold dictSetI at he
  split at he
  · rcases List.mem_map.1 he with ⟨x, hx, hfx⟩
    by_cases hxc : x.name = c.name
    · rw [if_pos hxc] at hfx
      exact Or.inr hfx.symm
    · rw [if_neg hxc] at hfx
      exact Or.inl (hfx ▸ hx)
  · rcases List.mem_append.1 he with h | h
    · exact Or.inl h
    · exact Or.inr (List.mem_singleton.1 h)

theorem mem_seedVectorI {vc : List VecCandI} :
    ∀ {m : List CandI} {e : CandI},
      e ∈ vc.foldl (fun acc c => dictSetI acc ⟨c.name, c.similarity, 0, "", c.description⟩) m →
      e ∈ m ∨ ∃ v ∈ vc, e = ⟨v.name, v.similarity, 0, "", v.description⟩ := by
  induction vc with
  | nil => exact fun he => Or.inl he
  | cons c cs ih =>
    intro m e he
    rcases ih he with h | ⟨v, hv, hev⟩
    · rcases mem_dictSetI h with h2 | h2
      · exact Or.inl h2
      · exact Or.inr ⟨c, List.mem_cons_self c cs, h2⟩
    · exact Or.inr ⟨v, List.mem_cons_of_mem c hv, hev⟩

theorem mem_aiMergeI_cases {d : List (String × String)} {m : List CandI} {a : AICand}
    {e : CandI} (he : e ∈ aiMergeI d m a) :
    (∃ x ∈ m, e.name = x.name ∧ e.vector_similarity = x.vector_similarity) ∨
    (e.vector_similarity = 0 ∧ (d.lookup e.name).isSome) := by
  unfold aiMergeI at he
  split at he
  · rcases List.mem_map.1 he with ⟨x, hx, hfx⟩
    by_cases hxa : x.name = a.name
    · rw [if_pos hxa] at hfx
      exact Or.inl ⟨x, hx, by rw [← hfx]; exact ⟨rfl, rfl⟩⟩
    · rw [if_neg hxa] at hfx
      exact Or.inl ⟨x, hx, by rw [hfx]; exact ⟨rfl, rfl⟩⟩
  · rcases hl : d.lookup a.name with _ | desc <;> rw [hl] at he
    · exact Or.inl ⟨e, he, rfl, rfl⟩
    · rcases List.mem_append.1 he with h | h
      · exact Or.inl ⟨e, h, rfl, rfl⟩
      · rw [List.mem_singleton.1 h]
        exact Or.inr ⟨rfl, by rw [hl]; rfl⟩

theorem mem_foldl_aiMergeI {d : List (String × String)} {ac : List AICand} :
    ∀ {m : List CandI} {e : CandI}, e ∈ ac.foldl (aiMergeI d) m →
      (∃ x ∈ m, e.name = x.name ∧ e.vector_similarity = x.vector_similarity) ∨
      (e.vector_similarity = 0 ∧ (d.lookup e.name).isSome) := by
  induction ac with
  | nil => exact fun he => Or.inl ⟨_, he, rfl, rfl⟩
  | cons a as ih =>
    intro m e he
    rcases ih he with ⟨x, hx, hnm, hvs⟩ | h
    · rcases mem_aiMergeI_cases hx with ⟨y, hy, hnm2, hvs2⟩ | ⟨hz, hs⟩
      · exact Or.inl ⟨y, hy, hnm.trans hnm2, hvs.trans hvs2⟩
      · exact Or.inr ⟨hvs.trans hz, by rwa [hnm]⟩
    · exact Or.inr h

theorem mem_allCandidatesI {d : List (String × String)} {vc : List VecCandI}
    {ac : List AICand} {e : CandI} (he : e ∈ allCandidatesI d vc ac) :
    (∃ v ∈ vc, e.name = v.name ∧ e.vector_similarity = v.similarity) ∨
    (e.vector_similarity = 0 ∧ (d.lookup e.name).isSome) := by
  rcases mem_foldl_aiMergeI he with ⟨x, hx, hnm, hvs⟩ | h
  · rcases mem_seedVectorI hx with h2 | ⟨v, hv, hxv⟩
    · cases h2
    · subst hxv
      exact Or.inl ⟨v, hv, hnm, hvs⟩
  · exact Or.inr h

theorem mem_combine_industry {d : List (String × String)} {vc : List VecCandI}
    {ac : List AICand} {s : ScoredI} (hs : s ∈ _combine_industry_results d vc ac) :
    ∃ c ∈ allCandidatesI d vc ac, s = scoreCandI c := by
  unfold _combine_industry_results at hs
  rcases List.mem_map.1 (List.mem_mergeSort.1 hs) with ⟨c, hc, hcs⟩
  exact ⟨c, hc, hcs.symm⟩

theorem mem_dictSetP {m : List CandP} {c e : CandP} (he : e ∈ dictSetP m c) :
    e ∈ m ∨ e = c := by
  unfold dictSetP at he
  split at he
  · rcases List.mem_map.1 he with ⟨x, hx, hfx⟩
    by_cases hxc : x.name = c.name
    · rw [if_pos hxc] at hfx
      exact Or.inr hfx.symm
    · rw [if_neg hxc] at hfx
      exact Or.inl (hfx ▸ hx)
  · rcases List.mem_append.1 he with h | h
    · exact Or.inl h
    · exact Or.inr (List.mem_singleton.1 h)

theorem mem_seedVectorP {vc : List VecCandP} :
    ∀ {m : List CandP} {e : CandP},
      e ∈ vc.foldl
        (fun acc c => dictSetP acc ⟨c.name, c.similarity, 0, "", c.description, c.period⟩) m →
      e ∈ m ∨ ∃ v ∈ vc, e = ⟨v.name, v.similarity, 0, "", v.description, v.period⟩ := by
  induction vc with
  | nil => exact fun he => Or.inl he
  | cons c cs ih =>
    intro m e he
    rcases ih he with h | ⟨v, hv, hev⟩
    · rcases mem_dictSetP h with h2 | h2
      · exact Or.inl h2
      · exact Or.inr ⟨c, List.mem_cons_self c cs, h2⟩
    · exact Or.inr ⟨v, List.mem_cons_of_mem c hv, hev⟩

theorem mem_aiMergeP_cases {d : List (String × String)} {m : List CandP} {a : AICand}
    {e : CandP} (he : e ∈ aiMergeP d m a) :
    (∃ x ∈ m, e.name = x.name ∧ e.vector_similarity = x.vector_similarity) ∨
    (e.vector_similarity = 0 ∧ (d.lookup e.name).isSome) := by
  unfold aiMergeP at he
  split at he
  · rcases List.mem_map.1 he with ⟨x, hx, hfx⟩
    by_cases hxa : x.name = a.name
    · rw [if_pos hxa] at hfx
      exact Or.inl ⟨x, hx, by rw [← hfx]; exact ⟨rfl, rfl⟩⟩
    · rw [if_neg hxa] at hfx
      exact Or.inl ⟨x, hx, by rw [hfx]; exact ⟨rfl, rfl⟩⟩
  · rcases hl : d.lookup a.name with _ | desc <;> rw [hl] at he
    · exact Or.inl ⟨e, he, rfl, rfl⟩
    · rcases List.mem_append.1 he with h | h
      · exact Or.inl ⟨e, h, rfl, rfl⟩
      · rw [List.mem_singleton.1 h]
        exact Or.inr ⟨rfl, by rw [hl]; rfl⟩

theorem mem_foldl_aiMergeP {d : List (String × String)} {ac : List AICand} :
    ∀ {m : List CandP} {e : CandP}, e ∈ ac.foldl (aiMergeP d) m →
      (∃ x ∈ m, e.name = x.name ∧ e.vector_similarity = x.vector_similarity) ∨
      (e.vector_similarity = 0 ∧ (d.lookup e.name).isSome) := by
  induction ac with
  | nil => exact fun he => Or.inl ⟨_, he, rfl, rfl⟩
  | cons a as ih =>
    intro m e he
    rcases ih he with ⟨x, hx, hnm, hvs⟩ | h
    · rcases mem_aiMergeP_cases hx with ⟨y, hy, hnm2, hvs2⟩ | ⟨hz, hs⟩
      · exact Or.inl ⟨y, hy, hnm.trans hnm2, hvs.trans hvs2⟩
      · exact Or.inr ⟨hvs.trans hz, by rwa [hnm]⟩
    · exact Or.inr h

theorem mem_allCandidatesP {d : List (String × String)} {vc : List VecCandP}
    {ac : List AICand} {e : CandP} (he : e ∈ allCandidatesP d vc ac) :
    (∃ v ∈ vc, e.name = v.name ∧ e.vector_similarity = v.similarity) ∨
    (e.vector_similarity = 0 ∧ (d.lookup e.name).isSome) := by
  rcases mem_foldl_aiMergeP he with ⟨x, hx, hnm, hvs⟩ | h
  · rcases mem_seedVectorP hx with h2 | ⟨v, hv, hxv⟩
    · cases h2
    · subst hxv
      exact Or.inl ⟨v, hv, hnm, hvs⟩
  · exact Or.inr h

theorem mem_combine_past {d : List (String × String)} {vc : List VecCandP}
    {ac : List AICand} {s : ScoredP} (hs : s ∈ _combine_past_issue_results d vc ac) :
    ∃ c ∈ allCandidatesP d vc ac, s = scoreCandP c := by
  unfold _combine_past_issue_results at hs
  rcases List.mem_map.1 (List.mem_mergeSort.1 hs) with ⟨c, hc, hcs⟩
  exact ⟨c, hc, hcs.symm⟩

/-- C5: an AI-nominated name that the catalog does not know and that never
occurs among the vector-source results does not appear in the blended result
list, for the industry combiner and the past-issue combiner alike. -/
theorem c5_name_filter (d : List (String × String)) (vc : List VecCandI)
    (vcp : List VecCandP) (ac : List AICand) (n : String) (h1 : d.lookup n = none)
    (h2 : ∀ v ∈ vc, v.name ≠ n) (h3 : ∀ v ∈ vcp, v.name ≠ n) :
    n ∉ (_combine_industry_results d vc ac).map ScoredI.name ∧
    n ∉ (_combine_past_issue_results d vcp ac).map ScoredP.name := by
  constructor
  · intro hmem
    rcases List.mem_map.1 hmem with ⟨s, hs, hname⟩
    rcases mem_combine_industry hs with ⟨c, hc, hsc⟩
    have hcn : c.name = n := by rw [← hname, hsc]; rfl
    rcases mem_allCandidatesI hc with ⟨v, hv, hnm, _⟩ | ⟨_, hsome⟩
    · exact h2 v hv (by rw [← hnm, hcn])
    · rw [hcn, h1] at hsome
      simp at hsome
  · intro hmem
    rcases List.mem_map.1 hmem with ⟨s, hs, hname⟩
    rcases mem_combine_past hs with ⟨c, hc, hsc⟩
    have hcn : c.name = n := by rw [← hname, hsc]; rfl
    rcases mem_allCandidatesP hc with ⟨v, hv, hnm, _⟩ | ⟨_, hsome⟩
    · exact h3 v hv (by rw [← hnm, hcn])
    · rw [hcn, h1] at hsome
      simp at hsome

/-- Witness for C5: the AI nomination "없음" is unknown to the catalog and
absent from both vector-source lists, and indeed surfaces in neither blended
list. -/
theorem c5_name_filter_witness :
    "없음" ∉ (_combine_industry_results [("화학", "설명")] [⟨"철강", 50, "상세"⟩]
      [⟨"없음", 5, "무관"⟩]).map ScoredI.name ∧
    "없음" ∉ (_combine_past_issue_results [("화학", "설명")]
      [⟨"이슈A", 50, "상세", "N/A"⟩] [⟨"없음", 5, "무관"⟩]).map ScoredP.name :=
  c5_name_filter [("화학", "설명")] [⟨"철강", 50, "상세"⟩] [⟨"이슈A", 50, "상세", "N/A"⟩]
    [⟨"없음", 5, "무관"⟩] "없음" (by decide) (by decide) (by decide)

theorem mem_foldl_vecStepI {d : List (String × String)} :
    ∀ {rs : List (String × ℚ)} {acc : List VecCandI} {c : VecCandI},
      c ∈ rs.foldl (vecStepI d) acc →
      c ∈ acc ∨ ∃ p ∈ rs, c.similarity = round1 ((1 - p.2) * 100) := by
  intro rs
  induction rs with
  | nil => exact fun he => Or.inl he
  | cons p ps ih =>
    intro acc c he
    rcases ih he with h | ⟨q, hq, hsim⟩
    · unfold vecStepI at h
      split at h
      · split at h
        · exact Or.inl h
        · rcases List.mem_append.1 h with h2 | h2
          · exact Or.inl h2
          · rw [List.mem_singleton.1 h2]
            exact Or.inr ⟨p, List.mem_cons_self p ps, rfl⟩
      · exact Or.inl h
    · exact Or.inr ⟨q, List.mem_cons_of_mem p hq, hsim⟩

/-- C7: every vector-sourced candidate carries
`similarity = round((1 - distance) * 100, 1)` for one of the retrieved
(document, distance) pairs, hence lies in `[0,100]` when distances lie in
`[0,1]`; and a blended candidate whose name never occurs among the vector
results (an AI-only candidate) has `vector_similarity = 0`. -/
theorem c7_similarity_conversion (d : List (String × String))
    (rs : List (String × ℚ)) (hd : ∀ p ∈ rs, 0 ≤ p.2 ∧ p.2 ≤ 1) :
    (∀ c ∈ _vector_search_industries d (Except.ok rs),
      (∃ p ∈ rs, c.similarity = round1 ((1 - p.2) * 100)) ∧
        0 ≤ c.similarity ∧ c.similarity ≤ 100) ∧
    (∀ (vc : List VecCandI) (ac : List AICand) (s : ScoredI),
      s ∈ _combine_industry_results d vc ac → s.name ∉ vc.map VecCandI.name →
      s.vector_similarity = 0) := by
  constructor
  · intro c hc
    rcases mem_foldl_vecStepI hc with h | ⟨p, hp, hsim⟩
    · cases h
    · refine ⟨⟨p, hp, hsim⟩, ?_, ?_⟩
      · rw [hsim]
        exact round1_nonneg (by nlinarith [(hd p hp).2])
      · rw [hsim]
        exact round1_le_hundred (by nlinarith [(hd p hp).1])
  · intro vc ac s hs hnot
    rcases mem_combine_industry hs with ⟨c, hc, hsc⟩
    have hvs : s.vector_similarity = c.vector_similarity := by rw [hsc]; rfl
    have hnm : s.name = c.name := by rw [hsc]; rfl
    rcases mem_allCandidatesI hc with ⟨v, hv, hnm2, _⟩ | ⟨h0, _⟩
    · exact absurd (List.mem_map.2 ⟨v, hv, by rw [← hnm2, ← hnm]⟩) hnot
    · rw [hvs, h0]

/-- Witness for C7: a concrete document at distance `1/5` yields a candidate
whose similarity is `round((1 - 1/5) * 100, 1)` and lies in `[0,100]`. -/
theorem c7_similarity_conversion_witness :
    0 ≤ (⟨"반도체", round1 ((1 - (1 / 5 : ℚ)) * 100), "chips"⟩ : VecCandI).similarity ∧
    (⟨"반도체", round1 ((1 - (1 / 5 : ℚ)) * 100), "chips"⟩ : VecCandI).similarity ≤ 100 := by
  have hp : parseIndustryDoc [("반도체", "desc")] "KRX 업종명: 반도체\n상세내용: chips" =
      some ("반도체", "chips") := by decide
  have hmem : (⟨"반도체", round1 ((1 - (1 / 5 : ℚ)) * 100), "chips"⟩ : VecCandI) ∈
      _vector_search_industries [("반도체", "desc")]
        (Except.ok [("KRX 업종명: 반도체\n상세내용: chips", 1 / 5)]) := by
    unfold _vector_search_industries
    simp [vecStepI, hp]
  have hd : ∀ p ∈ [(("KRX 업종명: 반도체\n상세내용: chips" : String), (1 / 5 : ℚ))],
      0 ≤ p.2 ∧ p.2 ≤ 1 := by
    intro p hpm
    rw [List.mem_singleton] at hpm
    subst hpm
    constructor <;> norm_num
  exact ((c7_similarity_conversion [("반도체", "desc")]
    [("KRX 업종명: 반도체\n상세내용: chips", 1 / 5)] hd).1 _ hmem).2

theorem nodup_append_singleton {α : Type} {l : List α} {a : α} (h : l.Nodup)
    (ha : a ∉ l) : (l ++ [a]).Nodup := by
  simp [List.nodup_append, h, ha]

theorem names_dictSetI (m : List CandI) (c : CandI) :
    (dictSetI m c).map CandI.name = m.map CandI.name ∨
    ((dictSetI m c).map CandI.name = m.map CandI.name ++ [c.name] ∧
      c.name ∉ m.map CandI.name) := by
  unfold dictSetI
  split
  · left
    rw [List.map_map]
    apply List.map_congr_left
    intro x hx
    dsimp
    by_cases hxc : x.name = c.name
    · rw [if_pos hxc, hxc]
    · rw [if_neg hxc]
  · rename_i hne
    right
    refine ⟨by simp, ?_⟩
    intro hmem
    rcases List.mem_map.1 hmem with ⟨x, hx, hxn⟩
    exact hne ⟨x, hx, hxn⟩

theorem names_aiMergeI (d : List (String × String)) (m : List CandI) (a : AICand) :
    (aiMergeI d m a).map CandI.name = m.map CandI.name ∨
    ((aiMergeI d m a).map CandI.name = m.map CandI.name ++ [a.name] ∧
      a.name ∉ m.map CandI.name) := by
  unfold aiMergeI
  split
  · left
    rw [List.map_map]
    apply List.map_congr_left
    intro x hx
    dsimp
    by_cases hxa : x.name = a.name
    · rw [if_pos hxa]
    · rw [if_neg hxa]
  · rename_i hne
    rcases hl : d.lookup a.name with _ | desc
    · left
      rfl
    · right
      refine ⟨by simp, ?_⟩
      intro hmem
      rcases List.mem_map.1 hmem with ⟨x, hx, hxn⟩
      exact hne ⟨x, hx, hxn⟩

theorem nodup_names_dictSetI {m : List CandI} (c : CandI)
    (h : (m.map CandI.name).Nodup) : ((dictSetI m c).map CandI.name).Nodup := by
  rcases names_dictSetI m c with heq | ⟨heq, hnot⟩
  · rwa [heq]
  · rw [heq]
    exact nodup_append_singleton h hnot

theorem nodup_names_aiMergeI {d : List (String × String)} {m : List CandI} (a : AICand)
    (h : (m.map CandI.name).Nodup) : ((aiMergeI d m a).map CandI.name).Nodup := by
  rcases names_aiMergeI d m a with heq | ⟨heq, hnot⟩
  · rwa [heq]
  · rw [heq]
    exact nodup_append_singleton h hnot

theorem nodup_names_allCandidatesI (d : List (String × String)) (vc : List VecCandI)
    (ac : List AICand) : ((allCandidatesI d vc ac).map CandI.name).Nodup := by
  have hseed : ∀ (vcs : List VecCandI) (m : List CandI), (m.map CandI.name).Nodup →
      ((vcs.foldl
        (fun acc c => dictSetI acc ⟨c.name, c.similarity, 0, "", c.description⟩)
        m).map CandI.name).Nodup := by
    intro vcs
    induction vcs with
    | nil => exact fun m h => h
    | cons c cs ih => exact fun m h => ih _ (nodup_names_dictSetI _ h)
  have hmerge : ∀ (acs : List AICand) (m : List CandI), (m.map CandI.name).Nodup →
      ((acs.foldl (aiMergeI d) m).map CandI.name).Nodup := by
    intro acs
    induction acs with
    | nil => exact fun m h => h
    | cons a as ih => exact fun m h => ih _ (nodup_names_aiMergeI _ h)
  exact hmerge ac _ (hseed vc [] (by simp))

theorem nodup_names_combine_industry (d : List (String × String)) (vc : List VecCandI)
    (ac : List AICand) :
    ((_combine_industry_results d vc ac).map ScoredI.name).Nodup := by
  have hperm : List.Perm ((_combine_industry_results d vc ac).map ScoredI.name)
      (((allCandidatesI d vc ac).map scoreCandI).map ScoredI.name) :=
    (List.mergeSort_perm _ _).map ScoredI.name
  rw [hperm.nodup_iff, List.map_map]
  exact nodup_names_allCandidatesI d vc ac

theorem nodup_names_vecStepI {d : List (String × String)} {acc : List VecCandI}
    (p : String × ℚ) (h : (acc.map VecCandI.name).Nodup) :
    ((vecStepI d acc p).map VecCandI.name).Nodup := by
  unfold vecStepI
  split
  · split
    · exact h
    · rename_i nm det heq hne
      have hnot : nm ∉ acc.map VecCandI.name := by
        intro hmem
        rcases List.mem_map.1 hmem with ⟨x, hx, hxn⟩
        exact hne ⟨x, hx, hxn⟩
      rw [List.map_append]
      exact nodup_append_singleton h hnot
  · exact h

theorem nodup_names_vector_search (d : List (String × String))
    (res : Except String (List (String × ℚ))) :
    ((_vector_search_industries d res).map VecCandI.name).Nodup := by
  unfold _vector_search_industries
  match res with
  | .error e => simp
  | .ok rs =>
    have h : ∀ (l : List (String × ℚ)) (acc : List VecCandI),
        (acc.map VecCandI.name).Nodup →
        ((l.foldl (vecStepI d) acc).map VecCandI.name).Nodup := by
      intro l
      induction l with
      | nil => exact fun acc h => h
      | cons p ps ih => exact fun acc h => ih _ (nodup_names_vecStepI p h)
    exact h rs [] (by simp)

theorem vecStepI_seen {d : List (String × String)} {acc : List VecCandI} {doc : String}
    {s : ℚ} {nm det : String} (hp : parseIndustryDoc d doc = some (nm, det))
    (hseen : nm ∈ acc.map VecCandI.name) : vecStepI d acc (doc, s) = acc := by
  unfold vecStepI
  rw [hp]
  rcases List.mem_map.1 hseen with ⟨c, hc, hcn⟩
  exact if_pos ⟨c, hc, hcn⟩

theorem vector_search_append_seen (d : List (String × String))
    (rs : List (String × ℚ)) (doc : String) (s : ℚ) (nm det : String)
    (hp : parseIndustryDoc d doc = some (nm, det))
    (hseen : nm ∈ (_vector_search_industries d (Except.ok rs)).map VecCandI.name) :
    _vector_search_industries d (Except.ok (rs ++ [(doc, s)])) =
      _vector_search_industries d (Except.ok rs) := by
  have h : ∀ l : List (String × ℚ),
      _vector_search_industries d (Except.ok l) = l.foldl (vecStepI d) [] :=
    fun l => rfl
  rw [h] at hseen
  rw [h, h, List.foldl_append, List.foldl_cons, List.foldl_nil]
  exact vecStepI_seen hp hseen

/-- C8: candidate names are pairwise distinct in every vector-source result
list and in every blended result list; and a further retrieved document that
parses to an already-seen name leaves the vector-source list unchanged, so
only the first (closest) occurrence of a name is kept. -/
theorem c8_name_uniqueness (d : List (String × String))
    (res : Except String (List (String × ℚ))) (vc : List VecCandI)
    (ac : List AICand) (rs : List (String × ℚ)) (doc : String) (s : ℚ)
    (nm det : String) (hp : parseIndustryDoc d doc = some (nm, det))
    (hseen : nm ∈ (_vector_search_industries d (Except.ok rs)).map VecCandI.name) :
    ((_vector_search_industries d res).map VecCandI.name).Nodup ∧
    ((_combine_industry_results d vc ac).map ScoredI.name).Nodup ∧
    _vector_search_industries d (Except.ok (rs ++ [(doc, s)])) =
      _vector_search_industries d (Except.ok rs) :=
  ⟨nodup_names_vector_search d res, nodup_names_combine_industry d vc ac,
    vector_search_append_seen d rs doc s nm det hp hseen⟩

/-- Witness for C8: retrieving the same document twice (the second time at a
larger distance) keeps only the first occurrence of the name "반도체". -/
theorem c8_name_uniqueness_witness :
    _vector_search_industries [("반도체", "desc")]
      (Except.ok [("KRX 업종명: 반도체\n상세내용: chips", 1 / 5),
        ("KRX 업종명: 반도체\n상세내용: chips", 7 / 10)]) =
      _vector_search_industries [("반도체", "desc")]
        (Except.ok [("KRX 업종명: 반도체\n상세내용: chips", 1 / 5)]) := by
  have hp : parseIndustryDoc [("반도체", "desc")] "KRX 업종명: 반도체\n상세내용: chips" =
      some ("반도체", "chips") := by decide
  have hseen : "반도체" ∈ (_vector_search_industries [("반도체", "desc")]
      (Except.ok [("KRX 업종명: 반도체\n상세내용: chips", 1 / 5)])).map VecCandI.name := by
    unfold _vector_search_industries
    simp [vecStepI, hp]
  exact (c8_name_uniqueness [("반도체", "desc")]
    (Except.ok [("KRX 업종명: 반도체\n상세내용: chips", 1 / 5)]) [] []
    [("KRX 업종명: 반도체\n상세내용: chips", 1 / 5)]
    "KRX 업종명: 반도체\n상세내용: chips" (7 / 10) "반도체" "chips" hp hseen).2.2

theorem names_foldl_aiMergeI (d : List (String × String)) (ac : List AICand) :
    ∀ m : List CandI, ∃ extra,
      (ac.foldl (aiMergeI d) m).map CandI.name = m.map CandI.name ++ extra ∧
      extra <+ ac.map AICand.name := by
  induction ac with
  | nil => exact fun m => ⟨[], by simp, List.nil_sublist _⟩
  | cons a as ih =>
    intro m
    rcases ih (aiMergeI d m a) with ⟨extra, heq, hsub⟩
    rcases names_aiMergeI d m a with h | ⟨h, _⟩
    · exact ⟨extra, by rw [List.foldl_cons, heq, h], hsub.cons a.name⟩
    · refine ⟨a.name :: extra, ?_, List.Sublist.cons₂ a.name hsub⟩
      rw [List.foldl_cons, heq, h, List.append_assoc]
      rfl

/-- C10: the final sort is stable and the candidate map preserves insertion
order, so ties in `final_score` are broken deterministically: a pair of
equally scored candidates keeps, in the sorted blended list, the order it had
in the candidate map, whose name sequence is the vector-seeded names followed
by the AI-only insertions in nomination order. -/
theorem c10_stable_tie_break (d : List (String × String)) (vc : List VecCandI)
    (ac : List AICand) (a b : ScoredI) (hfs : a.final_score = b.final_score)
    (hsub : [a, b] <+ (allCandidatesI d vc ac).map scoreCandI) :
    [a, b] <+ _combine_industry_results d vc ac ∧
    ∃ extra, (allCandidatesI d vc ac).map CandI.name =
      (seedVectorI vc).map CandI.name ++ extra ∧ extra <+ ac.map AICand.name := by
  constructor
  · exact List.pair_sublist_mergeSort scoredLeI_trans scoredLeI_total
      (by simp [scoredLeI, hfs]) hsub
  · exact names_foldl_aiMergeI d ac (seedVectorI vc)

/-- Witness for C10: two vector candidates with equal similarity, hence equal
final scores, keep their retrieval order in the sorted output. -/
theorem c10_stable_tie_break_witness :
    [scoreCandI ⟨"철강", 50, 0, "", "d1"⟩, scoreCandI ⟨"화학", 50, 0, "", "d2"⟩] <+
      _combine_industry_results [] [⟨"철강", 50, "d1"⟩, ⟨"화학", 50, "d2"⟩] [] := by
  have hall : allCandidatesI [] [⟨"철강", 50, "d1"⟩, ⟨"화학", 50, "d2"⟩] [] =
      [⟨"철강", 50, 0, "", "d1"⟩, ⟨"화학", 50, 0, "", "d2"⟩] := by
    unfold allCandidatesI seedVectorI
    rw [List.foldl_nil, List.foldl_cons, List.foldl_cons, List.foldl_nil]
    have h1 : dictSetI [] ⟨"철강", 50, 0, "", "d1"⟩ = [⟨"철강", 50, 0, "", "d1"⟩] := by
      unfold dictSetI
      rw [if_neg (by simp)]
      rfl
    rw [h1]
    unfold dictSetI
    rw [if_neg (by simp)]
    rfl
  exact (c10_stable_tie_break [] [⟨"철강", 50, "d1"⟩, ⟨"화학", 50, "d2"⟩] []
    (scoreCandI ⟨"철강", 50, 0, "", "d1"⟩) (scoreCandI ⟨"화학", 50, 0, "", "d2"⟩) rfl
    (by rw [hall]; exact List.Sublist.refl _)).1

end Orda
